import Mathlib

/-!
Verification development for the Comic-book-encyclopedia repository.

The Python sources under `encyclopedia/` are shallowly embedded below:
pure functions become Lean functions on `String` / `List Char`, the Django
record store becomes an explicit list of records threaded through the
operations, and Python dictionaries become association lists with
first-occurrence lookup.  Python's `str.strip()` whitespace set is modelled
by its ASCII portion (space, tab, newline, carriage return, vertical tab,
form feed), which covers every input considered here; Python set literals
(`{*a, *b}`) have unspecified iteration order, so they are modelled by
first-occurrence deduplication and only membership-level facts are claimed
about them.
-/

set_option autoImplicit false

namespace ComicEnc

/-! ### Python-style string primitives (on `List Char`) -/

/-- The whitespace characters recognised by Python's `str.strip()`
(ASCII portion). -/
def pyWhitespace : List Char := [' ', '\t', '\n', '\r', '\x0b', '\x0c']

def isPySpace (c : Char) : Bool := pyWhitespace.contains c

/-- `str.strip()` on a character list: drop leading and trailing whitespace. -/
def stripL (l : List Char) : List Char :=
  ((l.dropWhile isPySpace).reverse.dropWhile isPySpace).reverse

/-- Python `value.strip()`. -/
def pyStrip (s : String) : String := String.mk (stripL s.data)

/-- Python `value.split(sep)` for a one-character separator: splits at every
occurrence, keeping empty segments. -/
def splitCharL (sep : Char) : List Char → List (List Char)
  | [] => [[]]
  | c :: cs =>
    match splitCharL sep cs with
    | [] => [[]]
    | s :: rest => if c = sep then [] :: s :: rest else (c :: s) :: rest

def pySplit (s : String) (sep : Char) : List String :=
  (splitCharL sep s.data).map String.mk

/-- Python `value.replace(" ", "")`: removes every occurrence of the single
character `c` (and nothing else — in particular tabs survive). -/
def removeCharL (c : Char) (l : List Char) : List Char :=
  l.filter (fun x => x ≠ c)

def pyRemoveSpaces (s : String) : String := String.mk (removeCharL ' ' s.data)

/-! ### Field parsers (`encyclopedia/parsers.py`) -/

/-- `parsers.normalize_text`: `None` becomes `""`, otherwise strip. -/
def normalize_text : Option String → String
  | none => ""
  | some v => pyStrip v

/-- `parsers.split_semicolon_field`: `None`/blank input yields `[]`; otherwise
split on `;`, keep the parts whose strip is non-empty, stripped. -/
def split_semicolon_field : Option String → List String
  | none => []
  | some v =>
    if pyStrip v = "" then []
    else ((pySplit v ';').filter (fun p => pyStrip p ≠ "")).map pyStrip

/-- The comma-separated parts of an identifier field: remove space
characters, split on `,`, strip each part, drop the empty ones (the loop body
of `parse_isbn`). -/
def isbnParts (v : String) : List String :=
  ((pySplit (pyRemoveSpaces v) ',').map pyStrip).filter (fun p => p ≠ "")

/-- `parsers.parse_isbn`: `None`/blank input yields the sentinel
`["missing"]`; otherwise the comma-separated parts; if nothing remains, the
sentinel again. -/
def parse_isbn : Option String → List String
  | none => ["missing"]
  | some v =>
    if pyStrip v = "" then ["missing"]
    else if isbnParts v = [] then ["missing"] else isbnParts v

/-- The identifier parser as the specification words it (claim C5): "removes
all whitespace" — every whitespace character, not only spaces — then split on
`,`, trim, drop empties, sentinel when nothing remains.  Kept separate from
`parse_isbn`, which is the source's function, for a refinement comparison. -/
def parse_identifier_claim (v : String) : List String :=
  let dewhite := String.mk (v.data.filter (fun c => ¬ isPySpace c))
  let parts := ((pySplit dewhite ',').map pyStrip).filter (fun p => p ≠ "")
  if parts = [] then ["missing"] else parts

/-- The identifier parser as amended: remove only the space character
(other whitespace survives inside a part, though each part is still trimmed
at its ends), split on `,`, trim, drop empties, sentinel when empty. -/
def parse_identifier_amended (v : String) : List String :=
  if isbnParts v = [] then ["missing"] else isbnParts v

/-! ### Substring search (used by the `icontains` filters) -/

/-- `List.isPrefixOf` spelt out, on characters. -/
def hasPfx : List Char → List Char → Bool
  | [], _ => true
  | _ :: _, [] => false
  | a :: as, b :: bs => a = b && hasPfx as bs

/-- `needle` occurs contiguously inside `hay`. -/
def hasSub (needle : List Char) : List Char → Bool
  | [] => hasPfx needle []
  | c :: cs => hasPfx needle (c :: cs) || hasSub needle cs

def lowerStr (s : String) : String := String.mk (s.data.map Char.toLower)

/-- Django `field__icontains=value`: case-insensitive substring containment
of `needle` in `hay`. -/
def icontains (hay needle : String) : Bool :=
  hasSub (lowerStr needle).data (lowerStr hay).data

/-! ### Data model (`encyclopedia/models.py`)

`Comic` carries the JSON fields of the Django model; the record store is an
explicit list of comics, keyed by `bl_record_id` (unique in the database).
`other_fields` is a Python dict from normalised column names to either a
scalar string or a list of strings; dicts are association lists with
first-occurrence lookup. -/

inductive FieldVal where
  | s (v : String)
  | l (v : List String)
deriving DecidableEq, Repr

abbrev Dict := List (String × FieldVal)

structure Comic where
  bl_record_id : String
  title : String
  variant_titles : List String
  authors : List String
  publication_years : List String
  genres : List String
  languages : List String
  isbn : List String
  other_fields : Dict
deriving DecidableEq, Repr

/-- A fresh, unsaved `Comic(bl_record_id=...)`: every other field takes its
model default (empty string, empty list, empty dict). -/
def newComic (blid : String) : Comic :=
  ⟨blid, "", [], [], [], [], [], [], []⟩

/-- Output of `parse_row_to_record`. -/
structure Parsed where
  bl_record_id : String
  title : String
  variant_titles : List String
  authors : List String
  publication_years : List String
  genres : List String
  languages : List String
  isbn : List String
  other_fields : Dict
deriving DecidableEq, Repr

/-! ### Row access (`csv.DictReader` rows) -/

/-- A CSV row: a mapping from column label to raw text. -/
abbrev Row := List (String × String)

def rowGet (row : Row) (k : String) : Option String :=
  (row.find? (fun p => p.1 = k)).map (fun p => p.2)

/-- Python `a or b` on `dict.get` results: a present non-empty string wins,
otherwise fall through (`None` and `""` are both falsy). -/
def pyOrOpt (a b : Option String) : Option String :=
  match a with
  | some s => if s = "" then b else some s
  | none => b

/-- Python `a or b` on strings (`""` is falsy). -/
def pyOr (a b : String) : String := if a = "" then b else a

/-- `key.lower().replace(" ", "_")`. -/
def keyNorm (k : String) : String :=
  String.mk (k.data.map (fun c =>
    let c2 := c.toLower
    if c2 = ' ' then '_' else c2))

/-- Python `d[k] = v` on a dict modelled as an association list. -/
def dictInsert (d : Dict) (k : String) (v : FieldVal) : Dict :=
  if d.any (fun p => p.1 = k) then
    d.map (fun p => if p.1 = k then (k, v) else p)
  else d ++ [(k, v)]

def dictFind (d : Dict) (k : String) : Option FieldVal :=
  (d.find? (fun p => p.1 = k)).map (fun p => p.2)

/-- One entry of the left dict under `{**old, **new}`: keeps its key, takes
the value from `new` when `new` has the key. -/
def mergeEntry (new : Dict) (p : String × FieldVal) : String × FieldVal :=
  match new.find? (fun q => q.1 = p.1) with
  | some q => (p.1, q.2)
  | none => p

/-- Python `{**old, **new}`: keys of `old` keep their position but take the
value from `new` when present; keys only in `new` are appended in order. -/
def dictMerge (old new : Dict) : Dict :=
  old.map (mergeEntry new) ++
    new.filter (fun q => ¬ old.any (fun p => p.1 = q.1))

/-- The auxiliary columns copied into `other_fields`, in source order. -/
def auxKeys : List String :=
  ["Publisher", "Place of publication", "Topics", "Physical description",
   "Notes"]

/-- The `other` loop of `parse_row_to_record`: a present column is stored
under its normalised key, split on `;` when it is non-empty and contains a
`;`, kept as normalised scalar text otherwise. -/
def otherFieldsOf (row : Row) : Dict :=
  auxKeys.foldl (fun acc key =>
    match rowGet row key with
    | none => acc
    | some val =>
      dictInsert acc (keyNorm key)
        (if val ≠ "" ∧ hasSub [';'] val.data then
          FieldVal.l (split_semicolon_field (some val))
        else FieldVal.s (normalize_text (some val)))) []

/-- `parsers.parse_row_to_record`, including the header-alias fallbacks. -/
def parse_row_to_record (row : Row) : Parsed where
  bl_record_id := normalize_text
    (pyOrOpt (rowGet row "BL record ID")
      (pyOrOpt (rowGet row "BL record id") (rowGet row "BL record id")))
  title := normalize_text (pyOrOpt (rowGet row "Title") (rowGet row "Title "))
  variant_titles := split_semicolon_field
    (pyOrOpt (rowGet row "Variant titles") (rowGet row "Variant titles "))
  authors := split_semicolon_field
    (pyOrOpt (rowGet row "Name") (rowGet row "Name "))
  publication_years := split_semicolon_field
    (pyOrOpt (rowGet row "Date of publication")
      (rowGet row "Date of publication "))
  genres := split_semicolon_field
    (pyOrOpt (rowGet row "Genre") (rowGet row "Genre "))
  languages := split_semicolon_field
    (pyOrOpt (rowGet row "Languages") (rowGet row "Languages "))
  isbn := parse_isbn (pyOrOpt (rowGet row "ISBN") (rowGet row "ISBN "))
  other_fields := otherFieldsOf row

/-! ### Record store and upsert (`encyclopedia/repositories.py`) -/

abbrev Store := List Comic

/-- `Comic.objects.filter(bl_record_id=blid).first()`. -/
def findComic (store : Store) (blid : String) : Option Comic :=
  store.find? (fun c => c.bl_record_id = blid)

/-- Python `list({*a, *b})`: the set union of two lists.  The set literal's
iteration order is unspecified in Python; it is modelled deterministically by
first-occurrence deduplication of `a ++ b`, and only membership facts are
proved about it. -/
def pyUnion (a b : List String) : List String := (a ++ b).dedup

/-- `ComicRepository.upsert_from_parsed`: returns the updated store together
with the saved comic.  A found record (`obj.pk` set) takes the union of each
multi-valued field; a fresh record takes the parsed lists directly.  `isbn`
is overwritten wholesale, `other_fields` is `{**old, **new}`. -/
def upsert_from_parsed (store : Store) (parsed : Parsed) : Store × Comic :=
  let found := findComic store parsed.bl_record_id
  let obj := found.getD (newComic parsed.bl_record_id)
  let hasPk := found.isSome
  let obj2 : Comic :=
    { bl_record_id := obj.bl_record_id
      title := pyOr parsed.title (pyOr obj.title parsed.title)
      variant_titles :=
        if hasPk then pyUnion obj.variant_titles parsed.variant_titles
        else parsed.variant_titles
      authors :=
        if hasPk then pyUnion obj.authors parsed.authors else parsed.authors
      publication_years :=
        if hasPk then pyUnion obj.publication_years parsed.publication_years
        else parsed.publication_years
      genres :=
        if hasPk then pyUnion obj.genres parsed.genres else parsed.genres
      languages :=
        if hasPk then pyUnion obj.languages parsed.languages
        else parsed.languages
      isbn := parsed.isbn
      other_fields := dictMerge obj.other_fields parsed.other_fields }
  let store2 :=
    if hasPk then
      store.map (fun c =>
        if c.bl_record_id = parsed.bl_record_id then obj2 else c)
    else store ++ [obj2]
  (store2, obj2)

/-- Stores reachable from the empty store by parsing rows satisfying `P` and
upserting them, in any order and number. -/
inductive ReachableFrom (P : Row → Prop) : Store → Prop where
  | nil : ReachableFrom P []
  | step (s : Store) (row : Row) : P row → ReachableFrom P s →
      ReachableFrom P (upsert_from_parsed s (parse_row_to_record row)).1

/-! ### Filter library (`encyclopedia/services.py`)

Querysets are lists of comics.  Django's `jsonfield__icontains` does a
case-insensitive substring test against the serialized JSON text of the
field; the serialization is modelled in the JSON style below (the exact
spacing is irrelevant to the claims proved here). -/

abbrev Queryset := List Comic

def jsonStr (s : String) : String := "\"" ++ s ++ "\""

def jsonList (l : List String) : String :=
  "[" ++ String.intercalate ", " (l.map jsonStr) ++ "]"

def jsonVal : FieldVal → String
  | .s v => jsonStr v
  | .l v => jsonList v

def jsonDict (d : Dict) : String :=
  "\x7b" ++
    String.intercalate ", " (d.map (fun p => jsonStr p.1 ++ ": " ++ jsonVal p.2))
    ++ "\x7d"

/-- `GenreFilter.apply_filter`: blank parameter is a no-op, otherwise
`genres__icontains` on the stripped value. -/
def genreApply (qs : Queryset) (value : String) : Queryset :=
  if pyStrip value = "" then qs
  else qs.filter (fun c => icontains (jsonList c.genres) (pyStrip value))

/-- `AuthorFilter.apply_filter`. -/
def authorApply (qs : Queryset) (value : String) : Queryset :=
  if pyStrip value = "" then qs
  else qs.filter (fun c => icontains (jsonList c.authors) (pyStrip value))

/-- `YearFilter.apply_filter`. -/
def yearApply (qs : Queryset) (value : String) : Queryset :=
  if pyStrip value = "" then qs
  else
    qs.filter (fun c => icontains (jsonList c.publication_years) (pyStrip value))

/-- `TitleFilter.apply_filter`: matches the canonical title or any variant
title. -/
def titleApply (qs : Queryset) (value : String) : Queryset :=
  if pyStrip value = "" then qs
  else
    qs.filter (fun c =>
      icontains c.title (pyStrip value) ||
        icontains (jsonList c.variant_titles) (pyStrip value))

/-- `EditionFilter.apply_filter`: substring test on `other_fields`. -/
def editionApply (qs : Queryset) (value : String) : Queryset :=
  if pyStrip value = "" then qs
  else qs.filter (fun c => icontains (jsonDict c.other_fields) (pyStrip value))

/-- `NameTypeFilter.apply_filter`: substring test on `other_fields`. -/
def nameTypeApply (qs : Queryset) (value : String) : Queryset :=
  if pyStrip value = "" then qs
  else qs.filter (fun c => icontains (jsonDict c.other_fields) (pyStrip value))

/-- A filter parameter value: the language filter accepts either a single
string or a list of strings; every other filter receives a string. -/
inductive PVal where
  | s (v : String)
  | l (v : List String)
deriving DecidableEq, Repr

/-- `LanguageFilter.apply_filter`: falsy input is a no-op; a string is split
on commas, a list is cleaned element-wise; if no tokens remain, no-op;
otherwise a record matches when it contains any token. -/
def languageApply (qs : Queryset) (value : PVal) : Queryset :=
  match value with
  | .s v =>
    if v = "" then qs
    else
      let langs := ((pySplit v ',').filter (fun t => pyStrip t ≠ "")).map pyStrip
      if langs = [] then qs
      else
        qs.filter (fun c =>
          langs.any (fun lang => icontains (jsonList c.languages) lang))
  | .l v =>
    if v = [] then qs
    else
      let langs :=
        (v.filter (fun t => t ≠ "" ∧ pyStrip t ≠ "")).map pyStrip
      if langs = [] then qs
      else
        qs.filter (fun c =>
          langs.any (fun lang => icontains (jsonList c.languages) lang))

/-- The seven filter slots, in the declared dictionary order of
`ComicSearchService.__init__` / `search`. -/
inductive FilterKey where
  | genre | author | year | title | languages | edition | name_type
deriving DecidableEq, Repr

/-- The key under which each filter's parameter is logged in `search`. -/
def keyName : FilterKey → String
  | .genre => "genre"
  | .author => "author"
  | .year => "year"
  | .title => "title"
  | .languages => "languages"
  | .edition => "edition"
  | .name_type => "name_type"

/-- Dispatch to the filter's `apply_filter`.  The final catch-all (a list
value handed to a non-language filter) is unreachable from `search`, which
passes strings everywhere except the languages slot. -/
def applyOne : FilterKey → Queryset → PVal → Queryset
  | .genre, qs, .s v => genreApply qs v
  | .author, qs, .s v => authorApply qs v
  | .year, qs, .s v => yearApply qs v
  | .title, qs, .s v => titleApply qs v
  | .edition, qs, .s v => editionApply qs v
  | .name_type, qs, .s v => nameTypeApply qs v
  | .languages, qs, v => languageApply qs v
  | _, qs, .l _ => qs

/-- A single quote character (for Python's `repr` of a list in f-strings). -/
def sq : String := String.mk [Char.ofNat 39]

/-- Python `f"{value}"` for a parameter value: strings verbatim, lists in
`repr` form (quote escaping inside elements is not modelled). -/
def pvalStr : PVal → String
  | .s v => v
  | .l v => "[" ++ String.intercalate ", " (v.map (fun s => sq ++ s ++ sq)) ++ "]"

/-- The `for param_name, param_value in search_params.items()` loop of
`ComicSearchService.search`: absent parameters are skipped, present ones are
applied and logged, and the loop breaks as soon as the working queryset is
empty. -/
def applyFilterChain :
    List (FilterKey × Option PVal) → Queryset → List String →
      Queryset × List String
  | [], qs, log => (qs, log)
  | (_, none) :: rest, qs, log => applyFilterChain rest qs log
  | (k, some v) :: rest, qs, log =>
    let qs2 := applyOne k qs v
    let log2 := log ++ [keyName k ++ "=" ++ pvalStr v]
    if qs2 = [] then (qs2, log2) else applyFilterChain rest qs2 log2

/-- The raw keyword arguments of `ComicSearchService.search`. -/
structure SearchParams where
  title_query : Option PVal := none
  genre : Option PVal := none
  author : Option PVal := none
  year : Option PVal := none
  edition : Option PVal := none
  languages : Option PVal := none
  name_type : Option PVal := none
deriving Repr

/-- `_clean_search_params` on one value: strings are stripped and dropped to
`None` when empty, lists are cleaned element-wise and dropped to `None` when
empty. -/
def cleanPVal : Option PVal → Option PVal
  | none => none
  | some (.s v) => if pyStrip v = "" then none else some (.s (pyStrip v))
  | some (.l v) =>
    let cl := (v.filter (fun i => i ≠ "" ∧ pyStrip i ≠ "")).map pyStrip
    if cl = [] then none else some (.l cl)

/-- The `search_params` dictionary of `search`, in its fixed declared
order. -/
def orderedParams (p : SearchParams) : List (FilterKey × Option PVal) :=
  [(.genre, cleanPVal p.genre),
   (.author, cleanPVal p.author),
   (.year, cleanPVal p.year),
   (.title, cleanPVal p.title_query),
   (.languages, cleanPVal p.languages),
   (.edition, cleanPVal p.edition),
   (.name_type, cleanPVal p.name_type)]

/-! ### Base ordering and the search entry point -/

/-- Byte-wise (codepoint) lexicographic `≤` on character lists: the BINARY
collation a SQLite `ORDER BY title` uses. -/
def lexLe : List Char → List Char → Bool
  | [], _ => true
  | _ :: _, [] => false
  | a :: as, b :: bs => a < b || (a = b && lexLe as bs)

def strLeB (a b : String) : Bool := lexLe a.data b.data

/-- The ordering `qs.order_by("title")` sorts by. -/
def titleLe (a b : Comic) : Prop := strLeB a.title b.title = true

instance : DecidableRel titleLe := fun a b => by
  unfold titleLe; infer_instance

/-- One row of the `SearchLog` model. -/
structure SearchLogE where
  query_text : String
  result_ids : List String
  num_results : Nat
deriving DecidableEq, Repr

/-- `ComicSearchService.search`: clean parameters, run the filter chain in
the fixed order with short-circuit, sort by title, truncate to 10,000, and
produce the analytics log entry.  (The Python code swallows log-write
failures; the entry modelled is the one it attempts to write.) -/
def search (store : Store) (p : SearchParams) : List Comic × SearchLogE :=
  let chain := applyFilterChain (orderedParams p) store []
  let results := (List.insertionSort titleLe chain.1).take 10000
  let query_text :=
    if chain.2 = [] then "empty_search" else String.intercalate " AND " chain.2
  (results,
    { query_text := query_text
      result_ids := results.map (fun c => c.bl_record_id)
      num_results := results.length })

/-! ### Analytics (`ComicSearchService.top_results`) -/

/-- One step of the counting loop of `top_results`:
`counts[rid] = counts.get(rid, 0) + 1` on a dict modelled as an association
list in insertion order — an existing key is incremented in place, a new key
is appended. -/
def bumpCount (acc : List (String × Nat)) (rid : String) :
    List (String × Nat) :=
  if acc.any (fun p => p.1 = rid) then
    acc.map (fun p => if p.1 = rid then (p.1, p.2 + 1) else p)
  else acc ++ [(rid, 1)]

/-- The counting loop of `top_results`: a Python dict keyed by record id,
incremented per occurrence; dict iteration order is insertion order, so the
association list keeps first-seen order. -/
def occCounts (logs : List SearchLogE) : List (String × Nat) :=
  logs.foldl (fun acc log => log.result_ids.foldl bumpCount acc) []

/-- `sorted(counts.items(), key=lambda kv: kv[1], reverse=True)`: descending
by count.  (Python's sort is stable; the order among equal counts is not
claimed below.) -/
def byCountDesc (a b : String × Nat) : Prop := b.2 ≤ a.2

instance : DecidableRel byCountDesc := fun a b => by
  unfold byCountDesc; infer_instance

/-- `ComicSearchService.top_results`: the top `limit` (record, count) pairs;
note the record slot is an `Option` — an id with no matching comic yields
`none` (the Python code appends `(None, cnt)`). -/
def top_results (store : Store) (logs : List SearchLogE) (limit : Nat) :
    List (Option Comic × Nat) :=
  let items := (List.insertionSort byCountDesc (occCounts logs)).take limit
  items.map (fun rc => (findComic store rc.1, rc.2))

/-! ### Text normalizer (`import_comics.Command.clean_special_characters`,
identical logic in `Comic.get_clean_title`) -/

/-- The character replacement table, in source order. -/
def replacements : List (Char × String) :=
  [('&', " and "), ('@', " at "), ('#', " number "), ('%', " percent "),
   ('$', " dollar "), ('©', " copyright "), ('®', " registered "),
   ('™', " trademark ")]

/-- `text.replace(c, w)` for a one-character needle. -/
def replaceCharL (c : Char) (w : List Char) (l : List Char) : List Char :=
  (l.map (fun x => if x = c then w else [x])).flatten

/-- The sequential `for char, replacement in replacements.items()` loop. -/
def step1 (l : List Char) : List Char :=
  replacements.foldl (fun acc p => replaceCharL p.1 p.2.data acc) l

/-- Regex `\w`, modelled over its ASCII portion (the inputs of interest). -/
def isWordChar (c : Char) : Bool := c.isAlphanum || c = '_'

def keptPunct : List Char := ['-', '.', ',', '!', '?', ':', ';', '(', ')']

def isAllowed (c : Char) : Bool :=
  isWordChar c || isPySpace c || keptPunct.contains c

/-- `re.sub(r'[^\w\s\-\.\,\!\?\:\;\(\)]', ' ', text)`. -/
def step2 (l : List Char) : List Char :=
  l.map (fun c => if isAllowed c then c else ' ')

theorem dropWhile_length_le (p : Char → Bool) (l : List Char) :
    (l.dropWhile p).length ≤ l.length := by
  induction l with
  | nil => simp
  | cons a l ih =>
    rw [List.dropWhile_cons]
    by_cases h : p a = true
    · rw [if_pos h]
      exact Nat.le_succ_of_le ih
    · rw [if_neg h]

/-- `re.sub(r'\s+', ' ', text)`: collapse every whitespace run to one
space. -/
def collapseWs : List Char → List Char
  | [] => []
  | c :: cs =>
    if isPySpace c then ' ' :: collapseWs (cs.dropWhile isPySpace)
    else c :: collapseWs cs
termination_by l => l.length
decreasing_by
  · simp only [List.length_cons]
    exact Nat.lt_succ_of_le (dropWhile_length_le isPySpace cs)
  · simp [Nat.lt_succ_self]

def cleanCore (l : List Char) : List Char :=
  stripL (collapseWs (step2 (step1 l)))

/-- `Command.clean_special_characters`, including the falsy early return:
`None` maps to `None` and `""` to `""`. -/
def clean_special_characters : Option String → Option String
  | none => none
  | some t => if t = "" then some t else some (String.mk (cleanCore t.data))

/-! ### Lemmas: stripping -/

theorem stripL_eq_rdropWhile (l : List Char) :
    stripL l = List.rdropWhile isPySpace (l.dropWhile isPySpace) := rfl

theorem dropWhile_stripL (l : List Char) :
    (stripL l).dropWhile isPySpace = stripL l := by
  cases hE : stripL l with
  | nil => simp
  | cons a s =>
    have hpfx : stripL l <+: l.dropWhile isPySpace := by
      rw [stripL_eq_rdropWhile]
      exact List.rdropWhile_prefix _ _
    rw [hE] at hpfx
    obtain ⟨t, ht⟩ := hpfx
    have hne : l.dropWhile isPySpace ≠ [] := by
      intro h0
      rw [h0] at ht
      exact absurd ht (by simp)
    have hhead : (l.dropWhile isPySpace).head? = some a := by
      rw [← ht]
      rfl
    have hna : isPySpace a = false := by
      have h2 := List.head_dropWhile_not isPySpace l hne
      rw [List.head?_eq_head hne] at hhead
      rw [Option.some_inj.mp hhead] at h2
      exact h2
    rw [List.dropWhile_cons, hna]
    simp

theorem stripL_idem (l : List Char) : stripL (stripL l) = stripL l := by
  have h1 : stripL (stripL l) =
      List.rdropWhile isPySpace ((stripL l).dropWhile isPySpace) := rfl
  rw [h1, dropWhile_stripL, stripL_eq_rdropWhile, List.rdropWhile_idempotent]

theorem pyStrip_idem (s : String) : pyStrip (pyStrip s) = pyStrip s :=
  congrArg String.mk (stripL_idem s.data)

theorem str_eq_empty_iff (s : String) : s = "" ↔ s.data = [] := by
  constructor
  · intro h
    subst h
    rfl
  · intro h
    exact String.ext h

theorem stripL_eq_nil_iff (l : List Char) :
    stripL l = [] ↔ ∀ c ∈ l, isPySpace c = true := by
  rw [stripL_eq_rdropWhile, List.rdropWhile_eq_nil_iff]
  constructor
  · intro h c hc
    rw [← List.takeWhile_append_dropWhile isPySpace l] at hc
    rcases List.mem_append.mp hc with h1 | h2
    · exact List.mem_takeWhile_imp h1
    · exact h c h2
  · intro h c hc
    exact h c ((List.dropWhile_sublist isPySpace).mem hc)

theorem pyStrip_eq_empty_iff (s : String) :
    pyStrip s = "" ↔ ∀ c ∈ s.data, isPySpace c = true := by
  rw [str_eq_empty_iff]
  exact stripL_eq_nil_iff s.data

/-! ### Lemmas: splitting -/

theorem splitCharL_cons (sep a : Char) (as : List Char) :
    splitCharL sep (a :: as) =
      match splitCharL sep as with
      | [] => [[]]
      | s :: rest => if a = sep then [] :: s :: rest else (a :: s) :: rest :=
  rfl

theorem splitCharL_ne_nil (sep : Char) (l : List Char) :
    splitCharL sep l ≠ [] := by
  cases l with
  | nil => simp [splitCharL]
  | cons c cs =>
    rw [splitCharL]
    rcases h : splitCharL sep cs with _ | ⟨s, rest⟩
    · simp
    · by_cases hc : c = sep <;> simp [hc]

theorem mem_splitCharL_subset (sep : Char) (l : List Char) :
    ∀ seg ∈ splitCharL sep l, ∀ c ∈ seg, c ∈ l := by
  induction l with
  | nil =>
    intro seg hseg c hc
    simp [splitCharL] at hseg
    subst hseg
    simp at hc
  | cons a as ih =>
    intro seg hseg c hc
    rcases h : splitCharL sep as with _ | ⟨s, rest⟩
    · exact absurd h (splitCharL_ne_nil sep as)
    · rw [splitCharL_cons, h] at hseg
      dsimp only at hseg
      by_cases ha : a = sep
      · rw [if_pos ha] at hseg
        rcases List.mem_cons.mp hseg with h1 | h2
        · subst h1
          simp at hc
        · have : c ∈ as := ih seg (h ▸ h2) c hc
          exact List.mem_cons_of_mem a this
      · rw [if_neg ha] at hseg
        rcases List.mem_cons.mp hseg with h1 | h2
        · subst h1
          rcases List.mem_cons.mp hc with h3 | h4
          · rw [h3]
            exact List.mem_cons_self a as
          · have : c ∈ as := ih s (h ▸ List.mem_cons_self s rest) c h4
            exact List.mem_cons_of_mem a this
        · have : c ∈ as := ih seg (h ▸ List.mem_cons_of_mem s h2) c hc
          exact List.mem_cons_of_mem a this

theorem splitCharL_no_sep (sep : Char) (l : List Char)
    (h : ∀ c ∈ l, c ≠ sep) : splitCharL sep l = [l] := by
  induction l with
  | nil => rfl
  | cons a as ih =>
    have has : splitCharL sep as = [as] :=
      ih (fun c hc => h c (List.mem_cons_of_mem a hc))
    rw [splitCharL_cons, has]
    have : a ≠ sep := h a (List.mem_cons_self a as)
    simp [this]

theorem mem_split_semicolon_field (v : Option String) :
    ∀ x ∈ split_semicolon_field v, pyStrip x = x ∧ x ≠ "" := by
  cases v with
  | none => simp [split_semicolon_field]
  | some s =>
    intro x hx
    rw [split_semicolon_field] at hx
    by_cases hs : pyStrip s = ""
    · rw [if_pos hs] at hx
      simp at hx
    · rw [if_neg hs] at hx
      rcases List.mem_map.mp hx with ⟨p, hp, hpx⟩
      have hcond := List.of_mem_filter hp
      have hne : pyStrip p ≠ "" := by
        intro h0
        rw [h0] at hcond
        simp at hcond
      subst hpx
      exact ⟨pyStrip_idem p, hne⟩

/-! ### Lemmas: union-merge and dict-merge -/

theorem mem_pyUnion {x : String} {a b : List String} :
    x ∈ pyUnion a b ↔ x ∈ a ∨ x ∈ b := by
  simp [pyUnion, List.mem_dedup]

theorem nodup_pyUnion (a b : List String) : (pyUnion a b).Nodup :=
  List.nodup_dedup _

theorem find?_filter_of_imp {α : Type} (l : List α) (pk g : α → Bool)
    (h : ∀ x ∈ l, pk x = true → g x = true) :
    (l.filter g).find? pk = l.find? pk := by
  induction l with
  | nil => rfl
  | cons a t ih =>
    have iht := ih (fun x hx => h x (List.mem_cons_of_mem a hx))
    by_cases hg : g a = true
    · rw [List.filter_cons_of_pos hg]
      by_cases hp : pk a = true
      · rw [List.find?_cons_of_pos _ hp, List.find?_cons_of_pos _ hp]
      · rw [List.find?_cons_of_neg _ (by simpa using hp),
          List.find?_cons_of_neg _ (by simpa using hp), iht]
    · have hp : pk a = false := by
        by_contra hc
        exact hg (h a (List.mem_cons_self a t) (by simpa using hc))
      rw [List.filter_cons_of_neg (by simpa using hg),
        List.find?_cons_of_neg _ (by simp [hp]), iht]

theorem mergeEntry_key (new : Dict) (p : String × FieldVal) :
    (mergeEntry new p).1 = p.1 := by
  rw [mergeEntry]
  cases h : new.find? (fun q => q.1 = p.1) <;> simp

theorem dictFind_dictMerge (old new : Dict) (k : String) :
    dictFind (dictMerge old new) k =
      (dictFind new k).or (dictFind old k) := by
  rw [dictFind, dictMerge, List.find?_append, List.find?_map]
  have hpred : ((fun x : String × FieldVal => decide (x.1 = k)) ∘
      mergeEntry new) = (fun p : String × FieldVal => decide (p.1 = k)) := by
    funext p
    simp only [Function.comp_apply]
    rw [mergeEntry_key]
  rw [hpred]
  cases hold : old.find? (fun p => p.1 = k) with
  | some p0 =>
    have hp0 : p0.1 = k := by simpa using List.find?_some hold
    cases hnew : new.find? (fun q : String × FieldVal => q.1 = k) with
    | some q0 =>
      have hme : mergeEntry new p0 = (p0.1, q0.2) := by
        rw [mergeEntry, hp0, hnew]
      simp [dictFind, hnew, hme]
    | none =>
      have hme : mergeEntry new p0 = p0 := by
        rw [mergeEntry, hp0, hnew]
      simp [dictFind, hnew, hme, hold]
  | none =>
    have hfilter : (new.filter
        (fun q => ¬ old.any (fun p => p.1 = q.1))).find?
          (fun x : String × FieldVal => decide (x.1 = k)) =
        new.find? (fun x : String × FieldVal => decide (x.1 = k)) := by
      apply find?_filter_of_imp
      intro x _ hx
      have hxk : x.1 = k := by simpa using hx
      have hnone := List.find?_eq_none.mp hold
      simp only [decide_eq_true_eq]
      rw [hxk]
      intro hany
      rcases List.any_eq_true.mp hany with ⟨p, hp, hpk⟩
      exact (hnone p hp) (by simpa using hpk)
    simp only [Option.map_none', Option.none_or]
    rw [dictFind, dictFind, hfilter, hold]
    cases hnew : new.find? (fun x : String × FieldVal => decide (x.1 = k)) <;>
      simp

/-! ### Lemmas: unfolding the upsert -/

/-- The comic written back when the record already exists (`obj.pk` set). -/
def mergedComic (obj : Comic) (parsed : Parsed) : Comic where
  bl_record_id := obj.bl_record_id
  title := pyOr parsed.title (pyOr obj.title parsed.title)
  variant_titles := pyUnion obj.variant_titles parsed.variant_titles
  authors := pyUnion obj.authors parsed.authors
  publication_years := pyUnion obj.publication_years parsed.publication_years
  genres := pyUnion obj.genres parsed.genres
  languages := pyUnion obj.languages parsed.languages
  isbn := parsed.isbn
  other_fields := dictMerge obj.other_fields parsed.other_fields

/-- The comic written when the record is created fresh. -/
def freshComic (parsed : Parsed) : Comic where
  bl_record_id := parsed.bl_record_id
  title := pyOr parsed.title (pyOr "" parsed.title)
  variant_titles := parsed.variant_titles
  authors := parsed.authors
  publication_years := parsed.publication_years
  genres := parsed.genres
  languages := parsed.languages
  isbn := parsed.isbn
  other_fields := dictMerge [] parsed.other_fields

theorem upsert_eq_of_found (store : Store) (parsed : Parsed) (obj : Comic)
    (h : findComic store parsed.bl_record_id = some obj) :
    upsert_from_parsed store parsed =
      (store.map (fun c =>
        if c.bl_record_id = parsed.bl_record_id then mergedComic obj parsed
        else c),
       mergedComic obj parsed) := by
  unfold upsert_from_parsed
  rw [h]
  rfl

theorem upsert_eq_of_not_found (store : Store) (parsed : Parsed)
    (h : findComic store parsed.bl_record_id = none) :
    upsert_from_parsed store parsed =
      (store ++ [freshComic parsed], freshComic parsed) := by
  unfold upsert_from_parsed
  rw [h]
  rfl

/-! ## Claim C1: merge semantics of an upsert onto an existing record -/

/-- C1: when the parsed record's `external_id` already exists in the store,
`upsert_from_parsed` replaces the stored title with the parsed title only
when the parsed title is non-empty (keeping the existing title otherwise),
replaces each multi-valued field with the set union of existing and parsed
values, replaces the identifiers list wholesale with the parsed value, and
merges `extra_fields` key-by-key with new keys overwriting old keys. -/
theorem c1_upsert_existing_merges (store : Store) (parsed : Parsed)
    (obj : Comic) (h : findComic store parsed.bl_record_id = some obj) :
    ((upsert_from_parsed store parsed).2.title =
      if parsed.title = "" then obj.title else parsed.title) ∧
    (∀ x, x ∈ (upsert_from_parsed store parsed).2.variant_titles ↔
      x ∈ obj.variant_titles ∨ x ∈ parsed.variant_titles) ∧
    (∀ x, x ∈ (upsert_from_parsed store parsed).2.authors ↔
      x ∈ obj.authors ∨ x ∈ parsed.authors) ∧
    (∀ x, x ∈ (upsert_from_parsed store parsed).2.publication_years ↔
      x ∈ obj.publication_years ∨ x ∈ parsed.publication_years) ∧
    (∀ x, x ∈ (upsert_from_parsed store parsed).2.genres ↔
      x ∈ obj.genres ∨ x ∈ parsed.genres) ∧
    (∀ x, x ∈ (upsert_from_parsed store parsed).2.languages ↔
      x ∈ obj.languages ∨ x ∈ parsed.languages) ∧
    (upsert_from_parsed store parsed).2.isbn = parsed.isbn ∧
    (∀ k, dictFind (upsert_from_parsed store parsed).2.other_fields k =
      (dictFind parsed.other_fields k).or (dictFind obj.other_fields k)) := by
  rw [upsert_eq_of_found store parsed obj h]
  refine ⟨?_, ?_, ?_, ?_, ?_, ?_, ?_, ?_⟩
  · show pyOr parsed.title (pyOr obj.title parsed.title) = _
    by_cases hp : parsed.title = ""
    · rw [if_pos hp, hp, pyOr, if_pos rfl, pyOr]
      by_cases ho : obj.title = ""
      · rw [if_pos ho, ho]
      · rw [if_neg ho]
    · rw [if_neg hp, pyOr, if_neg hp]
  · intro x
    exact mem_pyUnion
  · intro x
    exact mem_pyUnion
  · intro x
    exact mem_pyUnion
  · intro x
    exact mem_pyUnion
  · intro x
    exact mem_pyUnion
  · rfl
  · intro k
    exact dictFind_dictMerge obj.other_fields parsed.other_fields k

/-- A one-record store for exercising C1. -/
def c1Obj : Comic :=
  ⟨"1", "Old title", ["v1"], ["A"], ["1999"], ["G"], ["en"], ["X"],
   [("publisher", .s "P")]⟩

def c1Store : Store := [c1Obj]

/-- A second import of the same record: blank title, new author, new
identifier list, overlapping extra field. -/
def c1Parsed : Parsed :=
  ⟨"1", "", ["v2"], ["B"], [], [], [], ["missing"],
   [("publisher", .s "Q"), ("notes", .s "N")]⟩

theorem c1_witness :
    (findComic c1Store c1Parsed.bl_record_id = some c1Obj) ∧
    (((upsert_from_parsed c1Store c1Parsed).2.title =
      if c1Parsed.title = "" then c1Obj.title else c1Parsed.title) ∧
    (∀ x, x ∈ (upsert_from_parsed c1Store c1Parsed).2.variant_titles ↔
      x ∈ c1Obj.variant_titles ∨ x ∈ c1Parsed.variant_titles) ∧
    (∀ x, x ∈ (upsert_from_parsed c1Store c1Parsed).2.authors ↔
      x ∈ c1Obj.authors ∨ x ∈ c1Parsed.authors) ∧
    (∀ x, x ∈ (upsert_from_parsed c1Store c1Parsed).2.publication_years ↔
      x ∈ c1Obj.publication_years ∨ x ∈ c1Parsed.publication_years) ∧
    (∀ x, x ∈ (upsert_from_parsed c1Store c1Parsed).2.genres ↔
      x ∈ c1Obj.genres ∨ x ∈ c1Parsed.genres) ∧
    (∀ x, x ∈ (upsert_from_parsed c1Store c1Parsed).2.languages ↔
      x ∈ c1Obj.languages ∨ x ∈ c1Parsed.languages) ∧
    (upsert_from_parsed c1Store c1Parsed).2.isbn = c1Parsed.isbn ∧
    (∀ k, dictFind (upsert_from_parsed c1Store c1Parsed).2.other_fields k =
      (dictFind c1Parsed.other_fields k).or (dictFind c1Obj.other_fields k))) :=
  ⟨by decide, c1_upsert_existing_merges c1Store c1Parsed c1Obj (by decide)⟩

/-! ## Claim C2: parse-then-upsert is idempotent on multi-valued fields -/

/-- After an upsert, looking the record up again finds exactly the comic the
upsert returned. -/
theorem findComic_upsert (store : Store) (p : Parsed) :
    findComic (upsert_from_parsed store p).1 p.bl_record_id =
      some (upsert_from_parsed store p).2 := by
  cases hf : findComic store p.bl_record_id with
  | some obj =>
    have hid : obj.bl_record_id = p.bl_record_id := by
      simpa using List.find?_some hf
    rw [upsert_eq_of_found store p obj hf]
    show findComic (store.map _) _ = _
    rw [findComic, List.find?_map]
    have hpred :
        ((fun c : Comic => decide (c.bl_record_id = p.bl_record_id)) ∘
          (fun c : Comic =>
            if c.bl_record_id = p.bl_record_id then mergedComic obj p
            else c)) =
        fun c : Comic => decide (c.bl_record_id = p.bl_record_id) := by
      funext c
      simp only [Function.comp_apply]
      by_cases hc : c.bl_record_id = p.bl_record_id
      · rw [if_pos hc]
        have hm : (mergedComic obj p).bl_record_id = obj.bl_record_id := rfl
        simp [hm, hid, hc]
      · rw [if_neg hc]
    rw [hpred]
    rw [findComic] at hf
    rw [hf]
    show some (if obj.bl_record_id = p.bl_record_id then mergedComic obj p
      else obj) = _
    rw [if_pos hid]
  | none =>
    rw [upsert_eq_of_not_found store p hf]
    show findComic (store ++ [freshComic p]) _ = _
    rw [findComic, List.find?_append]
    rw [findComic] at hf
    rw [hf]
    have hfr : (freshComic p).bl_record_id = p.bl_record_id := rfl
    simp [hfr]

/-- C2: for a row with a non-empty identifier field, parsing it and
upserting it twice yields a record whose multi-valued fields have exactly
the members of the record after a single application (the union of a set
with itself is itself; equality is as sets, the notion of equality the data
model assigns to these fields). -/
theorem c2_parse_upsert_idempotent (store : Store) (row : Row)
    (_h : (parse_row_to_record row).bl_record_id ≠ "") :
    (∀ x, x ∈ (upsert_from_parsed
        (upsert_from_parsed store (parse_row_to_record row)).1
        (parse_row_to_record row)).2.variant_titles ↔
      x ∈ (upsert_from_parsed store
        (parse_row_to_record row)).2.variant_titles) ∧
    (∀ x, x ∈ (upsert_from_parsed
        (upsert_from_parsed store (parse_row_to_record row)).1
        (parse_row_to_record row)).2.authors ↔
      x ∈ (upsert_from_parsed store (parse_row_to_record row)).2.authors) ∧
    (∀ x, x ∈ (upsert_from_parsed
        (upsert_from_parsed store (parse_row_to_record row)).1
        (parse_row_to_record row)).2.publication_years ↔
      x ∈ (upsert_from_parsed store
        (parse_row_to_record row)).2.publication_years) ∧
    (∀ x, x ∈ (upsert_from_parsed
        (upsert_from_parsed store (parse_row_to_record row)).1
        (parse_row_to_record row)).2.genres ↔
      x ∈ (upsert_from_parsed store (parse_row_to_record row)).2.genres) ∧
    (∀ x, x ∈ (upsert_from_parsed
        (upsert_from_parsed store (parse_row_to_record row)).1
        (parse_row_to_record row)).2.languages ↔
      x ∈ (upsert_from_parsed store (parse_row_to_record row)).2.languages) := by
  rw [upsert_eq_of_found _ (parse_row_to_record row)
    (upsert_from_parsed store (parse_row_to_record row)).2
    (findComic_upsert store (parse_row_to_record row))]
  cases hf : findComic store (parse_row_to_record row).bl_record_id with
  | some obj =>
    rw [upsert_eq_of_found store (parse_row_to_record row) obj hf]
    refine ⟨fun x => ?_, fun x => ?_, fun x => ?_, fun x => ?_, fun x => ?_⟩
      <;> (show x ∈ pyUnion (pyUnion _ _) _ ↔ x ∈ pyUnion _ _) <;>
        simp only [mem_pyUnion] <;> tauto
  | none =>
    rw [upsert_eq_of_not_found store (parse_row_to_record row) hf]
    refine ⟨fun x => ?_, fun x => ?_, fun x => ?_, fun x => ?_, fun x => ?_⟩
      <;> (show x ∈ pyUnion _ _ ↔ _) <;> simp only [mem_pyUnion] <;>
        (show _ ∨ _ ↔ _) <;> tauto

def c2Row : Row :=
  [("BL record ID", "7"), ("Title", "Watchmen"), ("Name", "Alan Moore"),
   ("Genre", "Drama;Science fiction"), ("Languages", "English"),
   ("ISBN", "978-W")]

theorem c2_witness :
    ((parse_row_to_record c2Row).bl_record_id ≠ "") ∧
    ((∀ x, x ∈ (upsert_from_parsed
        (upsert_from_parsed [] (parse_row_to_record c2Row)).1
        (parse_row_to_record c2Row)).2.variant_titles ↔
      x ∈ (upsert_from_parsed []
        (parse_row_to_record c2Row)).2.variant_titles) ∧
    (∀ x, x ∈ (upsert_from_parsed
        (upsert_from_parsed [] (parse_row_to_record c2Row)).1
        (parse_row_to_record c2Row)).2.authors ↔
      x ∈ (upsert_from_parsed [] (parse_row_to_record c2Row)).2.authors) ∧
    (∀ x, x ∈ (upsert_from_parsed
        (upsert_from_parsed [] (parse_row_to_record c2Row)).1
        (parse_row_to_record c2Row)).2.publication_years ↔
      x ∈ (upsert_from_parsed []
        (parse_row_to_record c2Row)).2.publication_years) ∧
    (∀ x, x ∈ (upsert_from_parsed
        (upsert_from_parsed [] (parse_row_to_record c2Row)).1
        (parse_row_to_record c2Row)).2.genres ↔
      x ∈ (upsert_from_parsed [] (parse_row_to_record c2Row)).2.genres) ∧
    (∀ x, x ∈ (upsert_from_parsed
        (upsert_from_parsed [] (parse_row_to_record c2Row)).1
        (parse_row_to_record c2Row)).2.languages ↔
      x ∈ (upsert_from_parsed [] (parse_row_to_record c2Row)).2.languages)) :=
  ⟨by decide, c2_parse_upsert_idempotent [] c2Row (by decide)⟩

/-! ## Claims C3 and C4: invariants of reachable records -/

/-- Every comic in an upserted store is either an old member or the comic
the upsert wrote. -/
theorem mem_upsert_store (s : Store) (p : Parsed) (c : Comic)
    (hc : c ∈ (upsert_from_parsed s p).1) :
    c ∈ s ∨ c = (upsert_from_parsed s p).2 := by
  cases hf : findComic s p.bl_record_id with
  | some obj =>
    rw [upsert_eq_of_found s p obj hf] at hc ⊢
    rcases List.mem_map.mp hc with ⟨c0, hc0, hg⟩
    by_cases hid : c0.bl_record_id = p.bl_record_id
    · rw [if_pos hid] at hg
      right
      rw [← hg]
    · rw [if_neg hid] at hg
      left
      rw [← hg]
      exact hc0
  | none =>
    rw [upsert_eq_of_not_found s p hf] at hc ⊢
    rcases List.mem_append.mp hc with h1 | h2
    · exact Or.inl h1
    · right
      simpa using h2

/-- The identifiers slot of the written comic is always the parsed one. -/
theorem upsert_isbn (s : Store) (p : Parsed) :
    (upsert_from_parsed s p).2.isbn = p.isbn := rfl

/-- The raw identifier field of a row, with the header-alias fallback of
`parse_row_to_record`. -/
def isbnRaw (row : Row) : Option String :=
  pyOrOpt (rowGet row "ISBN") (rowGet row "ISBN ")

/-- The claimed invariant: the sentinel `"missing"` never coexists with a
non-sentinel identifier. -/
def sentinelOK (ids : List String) : Prop :=
  ¬("missing" ∈ ids ∧ ∃ x ∈ ids, x ≠ "missing")

/-- A row whose raw identifier field does not itself carry the literal token
`"missing"` as one of its comma-separated parts. -/
def cleanIsbnRow (row : Row) : Prop :=
  "missing" ∉ ((isbnRaw row).map isbnParts).getD []

instance : DecidablePred cleanIsbnRow := fun row => by
  unfold cleanIsbnRow
  infer_instance

theorem parse_isbn_sentinelOK (v : Option String)
    (h : "missing" ∉ (v.map isbnParts).getD []) :
    sentinelOK (parse_isbn v) := by
  cases v with
  | none =>
    rintro ⟨-, x, hx, hne⟩
    simp [parse_isbn] at hx
    exact hne hx
  | some s =>
    rw [parse_isbn]
    by_cases h1 : pyStrip s = ""
    · rw [if_pos h1]
      rintro ⟨-, x, hx, hne⟩
      simp at hx
      exact hne hx
    · rw [if_neg h1]
      by_cases h2 : isbnParts s = []
      · rw [if_pos h2]
        rintro ⟨-, x, hx, hne⟩
        simp at hx
        exact hne hx
      · rw [if_neg h2]
        rintro ⟨hmem, -⟩
        simp at h
        exact h hmem

/-- C3 counterexample: the store reached by importing a row whose ISBN cell
is the text `"missing,978-X"`. -/
def c3Row : Row := [("BL record ID", "9"), ("ISBN", "missing,978-X")]

def c3Store : Store := (upsert_from_parsed [] (parse_row_to_record c3Row)).1

def c3Comic : Comic := (upsert_from_parsed [] (parse_row_to_record c3Row)).2

/-- C3 fails as stated: a record reachable by one parse-and-upsert holds
both the sentinel `"missing"` and the real identifier `"978-X"`. -/
theorem c3_counterexample :
    ReachableFrom (fun _ => True) c3Store ∧ c3Comic ∈ c3Store ∧
      "missing" ∈ c3Comic.isbn ∧ "978-X" ∈ c3Comic.isbn ∧
      ("978-X" : String) ≠ "missing" :=
  ⟨ReachableFrom.step [] c3Row trivial ReachableFrom.nil, by decide,
    by decide, by decide, by decide⟩

/-- C3 as amended: provided no imported row's raw identifier field contains
the literal token `"missing"` among its comma-separated parts, every record
reachable through parse and upsert keeps the sentinel mutually exclusive
with real identifiers. -/
theorem c3_amended_sentinel_invariant :
    ∀ (s : Store), ReachableFrom cleanIsbnRow s → ∀ c ∈ s,
      sentinelOK c.isbn := by
  intro s hs
  induction hs with
  | nil => simp
  | step s' row hrow _hre ih =>
    intro c hc
    rcases mem_upsert_store s' (parse_row_to_record row) c hc with h1 | h2
    · exact ih c h1
    · rw [h2, upsert_isbn]
      exact parse_isbn_sentinelOK (isbnRaw row) hrow

def c3wRow : Row := [("BL record ID", "5"), ("ISBN", "978-A,978-B")]

theorem c3_witness :
    sentinelOK (upsert_from_parsed [] (parse_row_to_record c3wRow)).2.isbn :=
  c3_amended_sentinel_invariant _
    (ReachableFrom.step [] c3wRow (by decide) ReachableFrom.nil) _
    (by decide)

/-- No member of a multi-valued field is empty or whitespace-only. -/
def noBlankMember (l : List String) : Prop := ∀ x ∈ l, pyStrip x ≠ ""

theorem noBlankMember_split (v : Option String) :
    noBlankMember (split_semicolon_field v) := by
  intro x hx
  rcases mem_split_semicolon_field v x hx with ⟨hfix, hne⟩
  rw [hfix]
  exact hne

theorem noBlankMember_pyUnion {a b : List String} (ha : noBlankMember a)
    (hb : noBlankMember b) : noBlankMember (pyUnion a b) := by
  intro x hx
  rcases mem_pyUnion.mp hx with h | h
  · exact ha x h
  · exact hb x h

/-- C4 counterexample: a first-time insert of a row whose `Name` cell reads
`"A;A"`. -/
def c4Row : Row := [("BL record ID", "4"), ("Name", "A;A")]

def c4Store : Store := (upsert_from_parsed [] (parse_row_to_record c4Row)).1

def c4Comic : Comic := (upsert_from_parsed [] (parse_row_to_record c4Row)).2

/-- C4 fails as stated: a record reachable by a first-time insert carries a
duplicated author. -/
theorem c4_counterexample :
    ReachableFrom (fun _ => True) c4Store ∧ c4Comic ∈ c4Store ∧
      ¬ c4Comic.authors.Nodup :=
  ⟨ReachableFrom.step [] c4Row trivial ReachableFrom.nil, by decide,
    by decide⟩

/-- C4 as amended: multi-valued fields of reachable records never contain
empty or whitespace-only strings, and an upsert onto an already existing
record leaves every multi-valued field duplicate-free; only a first-time
insert can carry duplicates (when the raw row repeats a value). -/
theorem c4_amended_multivalue_invariant :
    (∀ (s : Store), ReachableFrom (fun _ => True) s → ∀ c ∈ s,
      noBlankMember c.variant_titles ∧ noBlankMember c.authors ∧
      noBlankMember c.publication_years ∧ noBlankMember c.genres ∧
      noBlankMember c.languages) ∧
    (∀ (store : Store) (parsed : Parsed) (obj : Comic),
      findComic store parsed.bl_record_id = some obj →
      (upsert_from_parsed store parsed).2.variant_titles.Nodup ∧
      (upsert_from_parsed store parsed).2.authors.Nodup ∧
      (upsert_from_parsed store parsed).2.publication_years.Nodup ∧
      (upsert_from_parsed store parsed).2.genres.Nodup ∧
      (upsert_from_parsed store parsed).2.languages.Nodup) := by
  constructor
  · intro s hs
    induction hs with
    | nil => simp
    | step s' row _htriv _hre ih =>
      intro c hc
      rcases mem_upsert_store s' (parse_row_to_record row) c hc with h1 | h2
      · exact ih c h1
      · cases hf : findComic s' (parse_row_to_record row).bl_record_id with
        | some obj =>
          rw [upsert_eq_of_found s' (parse_row_to_record row) obj hf] at h2
          rcases ih obj (List.mem_of_find?_eq_some hf) with
            ⟨ho1, ho2, ho3, ho4, ho5⟩
          rw [h2]
          exact ⟨noBlankMember_pyUnion ho1 (noBlankMember_split _),
            noBlankMember_pyUnion ho2 (noBlankMember_split _),
            noBlankMember_pyUnion ho3 (noBlankMember_split _),
            noBlankMember_pyUnion ho4 (noBlankMember_split _),
            noBlankMember_pyUnion ho5 (noBlankMember_split _)⟩
        | none =>
          rw [upsert_eq_of_not_found s' (parse_row_to_record row) hf] at h2
          rw [h2]
          exact ⟨noBlankMember_split _, noBlankMember_split _,
            noBlankMember_split _, noBlankMember_split _,
            noBlankMember_split _⟩
  · intro store parsed obj hf
    rw [upsert_eq_of_found store parsed obj hf]
    exact ⟨nodup_pyUnion _ _, nodup_pyUnion _ _, nodup_pyUnion _ _,
      nodup_pyUnion _ _, nodup_pyUnion _ _⟩

def c4wRow : Row :=
  [("BL record ID", "6"), ("Name", "Stan Lee; Jack Kirby"),
   ("Genre", "Fantasy")]

theorem c4_witness :
    ((noBlankMember (upsert_from_parsed []
        (parse_row_to_record c4wRow)).2.variant_titles ∧
      noBlankMember (upsert_from_parsed []
        (parse_row_to_record c4wRow)).2.authors ∧
      noBlankMember (upsert_from_parsed []
        (parse_row_to_record c4wRow)).2.publication_years ∧
      noBlankMember (upsert_from_parsed []
        (parse_row_to_record c4wRow)).2.genres ∧
      noBlankMember (upsert_from_parsed []
        (parse_row_to_record c4wRow)).2.languages) ∧
    ((upsert_from_parsed (upsert_from_parsed []
        (parse_row_to_record c4wRow)).1
        (parse_row_to_record c4wRow)).2.variant_titles.Nodup ∧
      (upsert_from_parsed (upsert_from_parsed []
        (parse_row_to_record c4wRow)).1
        (parse_row_to_record c4wRow)).2.authors.Nodup ∧
      (upsert_from_parsed (upsert_from_parsed []
        (parse_row_to_record c4wRow)).1
        (parse_row_to_record c4wRow)).2.publication_years.Nodup ∧
      (upsert_from_parsed (upsert_from_parsed []
        (parse_row_to_record c4wRow)).1
        (parse_row_to_record c4wRow)).2.genres.Nodup ∧
      (upsert_from_parsed (upsert_from_parsed []
        (parse_row_to_record c4wRow)).1
        (parse_row_to_record c4wRow)).2.languages.Nodup)) :=
  ⟨c4_amended_multivalue_invariant.1 _
      (ReachableFrom.step [] c4wRow trivial ReachableFrom.nil) _ (by decide),
    c4_amended_multivalue_invariant.2 _ (parse_row_to_record c4wRow) _
      (findComic_upsert [] (parse_row_to_record c4wRow))⟩

/-! ## Claim C5: the identifier parser -/

/-- C5 fails as stated: the parser removes only space characters, not all
whitespace, so an embedded tab survives where the claimed algorithm would
delete it. -/
theorem c5_counterexample :
    parse_isbn (some "97\t8") = ["97\t8"] ∧
      parse_identifier_claim "97\t8" = ["978"] ∧
      (["97\t8"] : List String) ≠ ["978"] :=
  ⟨by decide, by decide, by decide⟩

/-- C5 as amended: the parser removes all space characters (U+0020 only;
other whitespace survives inside a part though every part is trimmed at its
ends), splits on comma, trims each part, drops empty parts, and returns the
sentinel `["missing"]` exactly when no parts remain; the four concrete
examples of the claim all hold. -/
theorem c5_amended_parse_isbn :
    (∀ v, parse_isbn (some v) = parse_identifier_amended v) ∧
    parse_isbn (some "") = ["missing"] ∧
    parse_isbn (some " , , ") = ["missing"] ∧
    parse_isbn (some "978-X,978-Y") = ["978-X", "978-Y"] ∧
    parse_isbn (some " 978-X , 978-Y ") = ["978-X", "978-Y"] := by
  refine ⟨?_, by decide, by decide, by decide, by decide⟩
  intro v
  rw [parse_isbn, parse_identifier_amended]
  by_cases h : pyStrip v = ""
  · rw [if_pos h]
    have hall : ∀ c ∈ v.data, isPySpace c = true := (pyStrip_eq_empty_iff v).mp h
    have hrm : ∀ c ∈ removeCharL ' ' v.data, isPySpace c = true := by
      intro c hc
      exact hall c (List.mem_of_mem_filter hc)
    have hnosep : ∀ c ∈ removeCharL ' ' v.data, c ≠ ',' := by
      intro c hc heq
      have hsp := hrm c hc
      rw [heq] at hsp
      exact absurd hsp (by decide)
    have hsplit : splitCharL ',' (removeCharL ' ' v.data) =
        [removeCharL ' ' v.data] := splitCharL_no_sep ',' _ hnosep
    have hstrip : pyStrip (String.mk (removeCharL ' ' v.data)) = "" :=
      (pyStrip_eq_empty_iff _).mpr (fun c hc => hrm c hc)
    have hparts : isbnParts v = [] := by
      rw [isbnParts, pySplit]
      have hdata : (pyRemoveSpaces v).data = removeCharL ' ' v.data := rfl
      rw [hdata, hsplit]
      simp [pyRemoveSpaces, hstrip]
    rw [hparts]
    simp
  · rw [if_neg h]

/-! ## Claim C6: fixed filter order and short-circuit -/

theorem chain_cons_none (k : FilterKey) (rest : List (FilterKey × Option PVal))
    (qs : Queryset) (log : List String) :
    applyFilterChain ((k, none) :: rest) qs log =
      applyFilterChain rest qs log := rfl

theorem chain_cons_some (k : FilterKey) (v : PVal)
    (rest : List (FilterKey × Option PVal)) (qs : Queryset)
    (log : List String) :
    applyFilterChain ((k, some v) :: rest) qs log =
      if applyOne k qs v = [] then
        (applyOne k qs v, log ++ [keyName k ++ "=" ++ pvalStr v])
      else
        applyFilterChain rest (applyOne k qs v)
          (log ++ [keyName k ++ "=" ++ pvalStr v]) := rfl

/-- As long as the working queryset has not emptied, the filter chain
processes an appended suffix from the state the prefix left behind. -/
theorem applyFilterChain_append_of_ne_nil
    (pre rest : List (FilterKey × Option PVal)) (qs : Queryset)
    (log : List String) (h : (applyFilterChain pre qs log).1 ≠ []) :
    applyFilterChain (pre ++ rest) qs log =
      applyFilterChain rest (applyFilterChain pre qs log).1
        (applyFilterChain pre qs log).2 := by
  induction pre generalizing qs log with
  | nil => rfl
  | cons e pre ih =>
    obtain ⟨k, v⟩ := e
    cases v with
    | none =>
      rw [chain_cons_none] at h
      show applyFilterChain (pre ++ rest) qs log =
        applyFilterChain rest (applyFilterChain pre qs log).1
          (applyFilterChain pre qs log).2
      exact ih qs log h
    | some pv =>
      by_cases hq : applyOne k qs pv = []
      · exfalso
        apply h
        rw [chain_cons_some, if_pos hq]
        exact hq
      · rw [chain_cons_some, if_neg hq] at h
        show applyFilterChain ((k, some pv) :: (pre ++ rest)) qs log =
          applyFilterChain rest
            (applyFilterChain ((k, some pv) :: pre) qs log).1
            (applyFilterChain ((k, some pv) :: pre) qs log).2
        rw [chain_cons_some, if_neg hq, chain_cons_some, if_neg hq]
        exact ih _ _ h

/-- C6: `search` applies its filters in the fixed declared order (genre,
author, year, title, languages, edition, name_type), each only when its
cleaned parameter is present; its logged query description is the join of
the chain's applied `field=value` pairs; and the chain short-circuits — as
soon as an applied filter leaves the working set empty, the loop returns at
once, so no later filter runs and no later pair is logged, whatever filters
follow. -/
theorem c6_search_order_and_short_circuit :
    (∀ p : SearchParams, (orderedParams p).map Prod.fst =
      [FilterKey.genre, FilterKey.author, FilterKey.year, FilterKey.title,
       FilterKey.languages, FilterKey.edition, FilterKey.name_type]) ∧
    (∀ (store : Store) (p : SearchParams), (search store p).2.query_text =
      (if (applyFilterChain (orderedParams p) store []).2 = []
       then "empty_search"
       else String.intercalate " AND "
         (applyFilterChain (orderedParams p) store []).2)) ∧
    (∀ (pre : List (FilterKey × Option PVal)) (k : FilterKey) (v : PVal)
      (post : List (FilterKey × Option PVal)) (qs : Queryset)
      (log : List String),
      (applyFilterChain pre qs log).1 ≠ [] →
      applyOne k (applyFilterChain pre qs log).1 v = [] →
      applyFilterChain (pre ++ (k, some v) :: post) qs log =
        ([], (applyFilterChain pre qs log).2 ++
          [keyName k ++ "=" ++ pvalStr v])) := by
  refine ⟨fun p => rfl, fun store p => rfl, ?_⟩
  intro pre k v post qs log h1 h2
  rw [applyFilterChain_append_of_ne_nil pre _ qs log h1, chain_cons_some,
    if_pos h2, h2]

def c6Store : Store :=
  [⟨"1", "Alpha", [], [], [], ["Fantasy"], [], [], []⟩,
   ⟨"2", "Beta", [], [], [], ["Horror"], [], [], []⟩]

theorem c6_witness :
    ((applyFilterChain [(FilterKey.genre, some (PVal.s "Fantasy"))]
        c6Store []).1 ≠ []) ∧
    (applyOne FilterKey.author
      (applyFilterChain [(FilterKey.genre, some (PVal.s "Fantasy"))]
        c6Store []).1 (PVal.s "Nobody") = []) ∧
    (applyFilterChain
        ([(FilterKey.genre, some (PVal.s "Fantasy"))] ++
          (FilterKey.author, some (PVal.s "Nobody")) ::
            [(FilterKey.title, some (PVal.s "Beta"))]) c6Store [] =
      ([], (applyFilterChain [(FilterKey.genre, some (PVal.s "Fantasy"))]
          c6Store []).2 ++
        [keyName FilterKey.author ++ "=" ++ pvalStr (PVal.s "Nobody")])) :=
  ⟨by decide, by decide,
    c6_search_order_and_short_circuit.2.2
      [(FilterKey.genre, some (PVal.s "Fantasy"))] FilterKey.author
      (PVal.s "Nobody") [(FilterKey.title, some (PVal.s "Beta"))] c6Store []
      (by decide) (by decide)⟩

/-! ## Claim C7: blank parameters are no-ops for every filter -/

/-- C7: every filter of the library, given a blank, empty, or
whitespace-only parameter (for the language filter: also a list whose every
element is blank), returns the input result set unchanged.  The embedded
filters are total functions — no filter-parameter error exists to be
raised; a malformed parameter degrades to exactly this no-op. -/
theorem c7_blank_filter_noop :
    (∀ (qs : Queryset) (v : String), pyStrip v = "" →
      genreApply qs v = qs ∧ authorApply qs v = qs ∧ yearApply qs v = qs ∧
      titleApply qs v = qs ∧ editionApply qs v = qs ∧
      nameTypeApply qs v = qs ∧ languageApply qs (PVal.s v) = qs) ∧
    (∀ (qs : Queryset) (l : List String), (∀ i ∈ l, pyStrip i = "") →
      languageApply qs (PVal.l l) = qs) := by
  constructor
  · intro qs v h
    refine ⟨by rw [genreApply, if_pos h], by rw [authorApply, if_pos h],
      by rw [yearApply, if_pos h], by rw [titleApply, if_pos h],
      by rw [editionApply, if_pos h], by rw [nameTypeApply, if_pos h], ?_⟩
    rw [languageApply]
    by_cases hv : v = ""
    · rw [if_pos hv]
    · rw [if_neg hv]
      have hall : ∀ c ∈ v.data, isPySpace c = true :=
        (pyStrip_eq_empty_iff v).mp h
      have hfilter : (pySplit v ',').filter (fun t => pyStrip t ≠ "") = [] := by
        rw [List.filter_eq_nil_iff]
        intro t ht
        rcases List.mem_map.mp ht with ⟨seg, hseg, hmk⟩
        have hsegall : ∀ c ∈ seg, isPySpace c = true := fun c hc =>
          hall c (mem_splitCharL_subset ',' v.data seg hseg c hc)
        have : pyStrip t = "" := by
          rw [← hmk]
          exact (pyStrip_eq_empty_iff _).mpr hsegall
        simp [this]
      rw [hfilter]
      simp
  · intro qs l h
    rw [languageApply]
    by_cases hl : l = []
    · rw [if_pos hl]
    · rw [if_neg hl]
      have hfilter : l.filter (fun t => t ≠ "" ∧ pyStrip t ≠ "") = [] := by
        rw [List.filter_eq_nil_iff]
        intro t ht
        simp [h t ht]
      rw [hfilter]
      simp

def c7Qs : Queryset :=
  [⟨"3", "Gamma", [], [], [], ["Drama"], ["English"], [], []⟩]

theorem c7_witness :
    (pyStrip "  " = "" ∧
      (genreApply c7Qs "  " = c7Qs ∧
        authorApply c7Qs "  " = c7Qs ∧
        yearApply c7Qs "  " = c7Qs ∧
        titleApply c7Qs "  " = c7Qs ∧
        editionApply c7Qs "  " = c7Qs ∧
        nameTypeApply c7Qs "  " = c7Qs ∧
        languageApply c7Qs (PVal.s "  ") = c7Qs)) ∧
    ((∀ i ∈ ["", " "], pyStrip i = "") ∧
      languageApply c7Qs (PVal.l ["", " "]) = c7Qs) :=
  ⟨⟨by decide, c7_blank_filter_noop.1 c7Qs "  " (by decide)⟩,
    ⟨by decide, c7_blank_filter_noop.2 c7Qs ["", " "] (by decide)⟩⟩

/-! ## Claim C8: base ordering and truncation of search results -/

theorem lexLe_total (a b : List Char) : lexLe a b = true ∨ lexLe b a = true := by
  induction a generalizing b with
  | nil => left; rfl
  | cons x xs ih =>
    cases b with
    | nil => right; rfl
    | cons y ys =>
      rcases lt_trichotomy x y with h | h | h
      · left
        simp [lexLe, h]
      · subst h
        rcases ih ys with h1 | h1
        · left
          simp [lexLe, h1]
        · right
          simp [lexLe, h1]
      · right
        simp [lexLe, h]

theorem lexLe_trans (a b c : List Char) (hab : lexLe a b = true)
    (hbc : lexLe b c = true) : lexLe a c = true := by
  induction a generalizing b c with
  | nil => rfl
  | cons x xs ih =>
    cases b with
    | nil => simp [lexLe] at hab
    | cons y ys =>
      cases c with
      | nil => simp [lexLe] at hbc
      | cons z zs =>
        simp only [lexLe, Bool.or_eq_true, Bool.and_eq_true,
          decide_eq_true_eq] at hab hbc ⊢
        rcases hab with h1 | ⟨h1, h1r⟩
        · rcases hbc with h2 | ⟨h2, _⟩
          · exact Or.inl (lt_trans h1 h2)
          · subst h2
            exact Or.inl h1
        · subst h1
          rcases hbc with h2 | ⟨h2, h2r⟩
          · exact Or.inl h2
          · subst h2
            exact Or.inr ⟨rfl, ih ys zs h1r h2r⟩

instance : IsTotal Comic titleLe :=
  ⟨fun a b => lexLe_total a.title.data b.title.data⟩

instance : IsTrans Comic titleLe :=
  ⟨fun a b c hab hbc => lexLe_trans a.title.data b.title.data c.title.data
    hab hbc⟩

/-- Case-insensitive byte-wise ordering on titles — the ordering the claim
asserts for the base result ordering. -/
def ciLe (a b : String) : Prop := strLeB (lowerStr a) (lowerStr b) = true

instance : DecidableRel ciLe := fun a b => by
  unfold ciLe
  infer_instance

def c8Store : Store :=
  [⟨"1", "Zebra", [], [], [], [], [], [], []⟩,
   ⟨"2", "apple", [], [], [], [], [], [], []⟩]

/-- C8 fails as stated: the base ordering is `order_by("title")`, the
store's binary (codepoint) collation, which is case-sensitive — `"Zebra"`
sorts before `"apple"`, violating the claimed case-insensitive ascending
order. -/
theorem c8_counterexample :
    ((search c8Store {}).1.map (fun c => c.title) = ["Zebra", "apple"]) ∧
      ¬ List.Pairwise ciLe ((search c8Store {}).1.map (fun c => c.title)) :=
  ⟨by decide, by decide⟩

/-- C8 as amended: the sequence returned by search is sorted by title
ascending under the record store's binary case-sensitive collation (the
case-insensitive ordering exists only in the separate caller-requested
`sort_results` strategy), and is truncated to at most 10,000 records. -/
theorem c8_amended_base_order (store : Store) (p : SearchParams) :
    (search store p).1.length ≤ 10000 ∧
      List.Pairwise titleLe (search store p).1 := by
  constructor
  · show ((List.insertionSort titleLe
      (applyFilterChain (orderedParams p) store []).1).take 10000).length ≤
        10000
    rw [List.length_take]
    exact min_le_left _ _
  · have hs := List.sorted_insertionSort titleLe
      (applyFilterChain (orderedParams p) store []).1
    exact List.Pairwise.sublist (List.take_sublist _ _) hs

/-! ## Claim C9: the text normalizer is idempotent -/

/-- No replacement-table character survives `step2`: none of the eight
special characters is in the allowed class. -/
theorem replacements_not_allowed : ∀ p ∈ replacements, isAllowed p.1 = false := by
  decide

theorem replaceCharL_cons (c : Char) (w : List Char) (a : Char)
    (t : List Char) :
    replaceCharL c w (a :: t) =
      (if a = c then w else [a]) ++ replaceCharL c w t := rfl

theorem replaceCharL_id (c : Char) (w : List Char) (l : List Char)
    (h : ∀ x ∈ l, x ≠ c) : replaceCharL c w l = l := by
  induction l with
  | nil => rfl
  | cons a t ih =>
    rw [replaceCharL_cons, if_neg (h a (List.mem_cons_self a t)),
      ih (fun x hx => h x (List.mem_cons_of_mem a hx))]
    rfl

theorem foldl_replace_id (rs : List (Char × String)) (l : List Char)
    (h : ∀ x ∈ l, ∀ p ∈ rs, x ≠ p.1) :
    rs.foldl (fun acc p => replaceCharL p.1 p.2.data acc) l = l := by
  induction rs with
  | nil => rfl
  | cons r rs ih =>
    rw [List.foldl_cons,
      replaceCharL_id r.1 r.2.data l
        (fun x hx => h x hx r (List.mem_cons_self r rs))]
    exact ih (fun x hx p hp => h x hx p (List.mem_cons_of_mem r hp))

theorem step1_id (l : List Char) (h : ∀ x ∈ l, isAllowed x = true) :
    step1 l = l := by
  apply foldl_replace_id
  intro x hx p hp hxp
  have hna := replacements_not_allowed p hp
  rw [← hxp, h x hx] at hna
  simp at hna

theorem mem_step2_allowed (l : List Char) :
    ∀ c ∈ step2 l, isAllowed c = true := by
  intro c hc
  rcases List.mem_map.mp hc with ⟨a, _, ha⟩
  by_cases h : isAllowed a = true
  · rw [if_pos h] at ha
    rw [← ha]
    exact h
  · rw [if_neg h] at ha
    rw [← ha]
    decide

theorem step2_id (l : List Char) (h : ∀ c ∈ l, isAllowed c = true) :
    step2 l = l := by
  induction l with
  | nil => rfl
  | cons a t ih =>
    show (if isAllowed a then a else ' ') :: step2 t = a :: t
    rw [if_pos (h a (List.mem_cons_self a t)),
      ih (fun c hc => h c (List.mem_cons_of_mem a hc))]

theorem collapseWs_nil : collapseWs [] = [] := by
  rw [collapseWs]

theorem collapseWs_cons (c : Char) (cs : List Char) :
    collapseWs (c :: cs) =
      if isPySpace c then ' ' :: collapseWs (cs.dropWhile isPySpace)
      else c :: collapseWs cs := by
  rw [collapseWs]

/-- The first element `dropWhile` leaves in place fails the predicate. -/
theorem dropWhile_head_false (p : Char → Bool) :
    ∀ (cs : List Char) (e : Char) (es : List Char),
      cs.dropWhile p = e :: es → p e = false := by
  intro cs
  induction cs with
  | nil =>
    intro e es h
    simp at h
  | cons a t ih =>
    intro e es h
    rw [List.dropWhile_cons] at h
    by_cases hp : p a = true
    · rw [if_pos hp] at h
      exact ih e es h
    · rw [if_neg hp] at h
      injection h with h1 _
      rw [← h1]
      simpa using hp

/-- At most single spaces: no two adjacent whitespace characters. -/
def noTwoWs (a b : Char) : Prop :=
  ¬(isPySpace a = true ∧ isPySpace b = true)

theorem mem_collapseWs (l : List Char) :
    ∀ x ∈ collapseWs l, x = ' ' ∨ x ∈ l := by
  induction l using collapseWs.induct with
  | case1 => simp [collapseWs]
  | case2 c cs h ih =>
    intro x hx
    rw [collapseWs_cons, if_pos h] at hx
    rcases List.mem_cons.mp hx with h1 | h2
    · exact Or.inl h1
    · rcases ih x h2 with h3 | h3
      · exact Or.inl h3
      · exact Or.inr
          (List.mem_cons_of_mem c ((cs.dropWhile_sublist isPySpace).mem h3))
  | case3 c cs h ih =>
    intro x hx
    rw [collapseWs_cons, if_neg h] at hx
    rcases List.mem_cons.mp hx with h1 | h2
    · subst h1
      exact Or.inr (List.mem_cons_self x cs)
    · rcases ih x h2 with h3 | h3
      · exact Or.inl h3
      · exact Or.inr (List.mem_cons_of_mem c h3)

theorem collapseWs_ws_space (l : List Char) :
    ∀ x ∈ collapseWs l, isPySpace x = true → x = ' ' := by
  induction l using collapseWs.induct with
  | case1 => simp [collapseWs]
  | case2 c cs h ih =>
    intro x hx hxs
    rw [collapseWs_cons, if_pos h] at hx
    rcases List.mem_cons.mp hx with h1 | h2
    · exact h1
    · exact ih x h2 hxs
  | case3 c cs h ih =>
    intro x hx hxs
    rw [collapseWs_cons, if_neg h] at hx
    rcases List.mem_cons.mp hx with h1 | h2
    · subst h1
      exact absurd hxs h
    · exact ih x h2 hxs

/-- Whether a list starts with a whitespace character. -/
def headWs : List Char → Bool
  | [] => false
  | c :: _ => isPySpace c

theorem headWs_collapseWs (l : List Char) :
    headWs (collapseWs l) = headWs l := by
  cases l with
  | nil => rw [collapseWs_nil]
  | cons c cs =>
    rw [collapseWs_cons]
    by_cases h : isPySpace c = true
    · rw [if_pos h]
      show isPySpace ' ' = isPySpace c
      rw [h]
      decide
    · rw [if_neg h]
      rfl

theorem chain_collapseWs (l : List Char) :
    List.Chain' noTwoWs (collapseWs l) := by
  induction l using collapseWs.induct with
  | case1 => simp [collapseWs]
  | case2 c cs h ih =>
    rw [collapseWs_cons, if_pos h]
    refine List.Chain'.cons' ih ?_
    intro y hy
    intro hcon
    have hyw : isPySpace y = true := hcon.2
    have hhw : headWs (collapseWs (cs.dropWhile isPySpace)) = true := by
      cases hcm : collapseWs (cs.dropWhile isPySpace) with
      | nil =>
        rw [hcm] at hy
        simp at hy
      | cons d ds =>
        rw [hcm] at hy
        simp at hy
        show isPySpace d = true
        rw [hy]
        exact hyw
    rw [headWs_collapseWs] at hhw
    cases hdw : cs.dropWhile isPySpace with
    | nil =>
      rw [hdw] at hhw
      simp [headWs] at hhw
    | cons e es =>
      have hef : isPySpace e = false :=
        dropWhile_head_false isPySpace cs e es hdw
      rw [hdw] at hhw
      have h5 : isPySpace e = true := hhw
      rw [h5] at hef
      simp at hef
  | case3 c cs h ih =>
    rw [collapseWs_cons, if_neg h]
    refine List.Chain'.cons' ih ?_
    intro y _ hcon
    exact h hcon.1

theorem collapseWs_id (l : List Char)
    (h1 : ∀ c ∈ l, isPySpace c = true → c = ' ')
    (h2 : List.Chain' noTwoWs l) : collapseWs l = l := by
  induction l with
  | nil => exact collapseWs_nil
  | cons c cs ih =>
    by_cases hc : isPySpace c = true
    · have hcsp : c = ' ' := h1 c (List.mem_cons_self c cs) hc
      have hdw : cs.dropWhile isPySpace = cs := by
        cases cs with
        | nil => rfl
        | cons d ds =>
          have hrel := List.Chain'.rel_head h2
          have hd : isPySpace d = false := by
            by_contra hcon
            exact hrel ⟨hc, by simpa using hcon⟩
          rw [List.dropWhile_cons, hd]
          simp
      rw [collapseWs_cons, if_pos hc, hdw, hcsp,
        ih (fun x hx hxs => h1 x (List.mem_cons_of_mem c hx) hxs)
          (List.Chain'.tail h2)]
    · rw [collapseWs_cons, if_neg hc,
        ih (fun x hx hxs => h1 x (List.mem_cons_of_mem c hx) hxs)
          (List.Chain'.tail h2)]

theorem stripL_within (l : List Char) : stripL l <:+: l := by
  have h1 : stripL l <+: l.dropWhile isPySpace := by
    rw [stripL_eq_rdropWhile]
    exact List.rdropWhile_prefix _ _
  have h2 : l.dropWhile isPySpace <:+ l := List.dropWhile_suffix _
  have h3 : stripL l <:+: l.dropWhile isPySpace := List.IsPrefix.isInfix h1
  have h4 : l.dropWhile isPySpace <:+: l := List.IsSuffix.isInfix h2
  exact h3.trans h4

theorem mem_cleanCore_allowed (x : List Char) :
    ∀ c ∈ cleanCore x, isAllowed c = true := by
  intro c hc
  have h1 : c ∈ collapseWs (step2 (step1 x)) := (stripL_within _).subset hc
  rcases mem_collapseWs _ c h1 with h | h
  · rw [h]
    decide
  · exact mem_step2_allowed _ c h

theorem cleanCore_ws_space (x : List Char) :
    ∀ c ∈ cleanCore x, isPySpace c = true → c = ' ' := by
  intro c hc hcs
  have h1 : c ∈ collapseWs (step2 (step1 x)) := (stripL_within _).subset hc
  exact collapseWs_ws_space _ c h1 hcs

theorem chain_cleanCore (x : List Char) :
    List.Chain' noTwoWs (cleanCore x) :=
  List.Chain'.infix (chain_collapseWs _) (stripL_within _)

theorem cleanCore_idem (x : List Char) :
    cleanCore (cleanCore x) = cleanCore x := by
  have hall := mem_cleanCore_allowed x
  show stripL (collapseWs (step2 (step1 (cleanCore x)))) = cleanCore x
  rw [step1_id _ hall, step2_id _ hall,
    collapseWs_id _ (cleanCore_ws_space x) (chain_cleanCore x)]
  show stripL (stripL (collapseWs (step2 (step1 x)))) = _
  rw [stripL_idem]
  rfl

/-- C9: `clean_special_characters` is idempotent on every input and acts as
the identity on empty or absent input (`None` maps to `None`, `""` to
`""`). -/
theorem c9_clean_idempotent_identity :
    (∀ x : Option String,
      clean_special_characters (clean_special_characters x) =
        clean_special_characters x) ∧
    clean_special_characters none = none ∧
    clean_special_characters (some "") = some "" := by
  refine ⟨?_, rfl, by decide⟩
  intro x
  cases x with
  | none => rfl
  | some t =>
    rw [clean_special_characters]
    by_cases ht : t = ""
    · rw [if_pos ht, clean_special_characters, if_pos ht]
    · rw [if_neg ht, clean_special_characters]
      by_cases h2 : String.mk (cleanCore t.data) = ""
      · rw [if_pos h2]
      · rw [if_neg h2]
        show some (String.mk (cleanCore (cleanCore t.data))) = _
        rw [cleanCore_idem]

/-! ## Claim C10: top results -/

/-- The number of occurrences of `rid` across all `result_ids` lists of the
log. -/
def countOcc (logs : List SearchLogE) (rid : String) : Nat :=
  (logs.map (fun log => log.result_ids.count rid)).sum

/-- The counting dict represents the occurrence function `f`: every entry
carries the true (positive) count of its key, and every id with a positive
count has an entry. -/
def CountRepr (acc : List (String × Nat)) (f : String → Nat) : Prop :=
  (∀ p ∈ acc, p.2 = f p.1 ∧ 0 < p.2) ∧
  (∀ k, 0 < f k → acc.any (fun p => p.1 = k) = true)

theorem CountRepr_congr {acc : List (String × Nat)} {f g : String → Nat}
    (h : ∀ k, f k = g k) (hr : CountRepr acc f) : CountRepr acc g := by
  obtain ⟨h1, h2⟩ := hr
  refine ⟨fun p hp => ?_, fun k hk => ?_⟩
  · rw [← h p.1]
    exact h1 p hp
  · rw [← h k] at hk
    exact h2 k hk

theorem bumpCount_repr {acc : List (String × Nat)} {f : String → Nat}
    (hr : CountRepr acc f) (rid : String) :
    CountRepr (bumpCount acc rid)
      (fun k => if k = rid then f k + 1 else f k) := by
  obtain ⟨h1, h2⟩ := hr
  rw [bumpCount]
  by_cases hany : acc.any (fun p => p.1 = rid) = true
  · rw [if_pos hany]
    constructor
    · intro p hp
      rcases List.mem_map.mp hp with ⟨q, hq, hm⟩
      rcases h1 q hq with ⟨hv, hpos⟩
      rw [← hm]
      by_cases hk : q.1 = rid
      · rw [if_pos hk]
        constructor
        · show q.2 + 1 = if q.1 = rid then f q.1 + 1 else f q.1
          rw [if_pos hk, hv]
        · exact Nat.succ_pos _
      · rw [if_neg hk]
        constructor
        · show q.2 = if q.1 = rid then f q.1 + 1 else f q.1
          rw [if_neg hk, hv]
        · exact hpos
    · intro k hk
      rw [List.any_map]
      by_cases hkr : k = rid
      · subst hkr
        rcases List.any_eq_true.mp hany with ⟨q, hq, hqk⟩
        refine List.any_eq_true.mpr ⟨q, hq, ?_⟩
        simp only [Function.comp_apply]
        by_cases h3 : q.1 = k
        · simp [h3]
        · simp at hqk
          exact absurd hqk h3
      · have hk2 : 0 < f k := by simpa [hkr] using hk
        rcases List.any_eq_true.mp (h2 k hk2) with ⟨q, hq, hqk⟩
        refine List.any_eq_true.mpr ⟨q, hq, ?_⟩
        simp only [Function.comp_apply]
        have hqk2 : q.1 = k := by simpa using hqk
        by_cases h3 : q.1 = rid
        · rw [h3] at hqk2
          exact absurd hqk2.symm hkr
        · have hqq : (if q.1 = rid then (q.1, q.2 + 1) else q) = q := if_neg h3
          rw [hqq]
          exact hqk
  · rw [if_neg hany]
    have hnone : ∀ p ∈ acc, p.1 ≠ rid := by
      intro p hp hcon
      apply hany
      exact List.any_eq_true.mpr ⟨p, hp, by simp [hcon]⟩
    have hfr : f rid = 0 := by
      by_contra hcon
      have := h2 rid (Nat.pos_of_ne_zero hcon)
      exact absurd this hany
    constructor
    · intro p hp
      rcases List.mem_append.mp hp with hpo | hpn
      · rcases h1 p hpo with ⟨hv, hpos⟩
        constructor
        · show p.2 = if p.1 = rid then f p.1 + 1 else f p.1
          rw [if_neg (hnone p hpo), hv]
        · exact hpos
      · simp at hpn
        subst hpn
        constructor
        · show 1 = if rid = rid then f rid + 1 else f rid
          rw [if_pos rfl, hfr]
        · exact Nat.one_pos
    · intro k hk
      by_cases hkr : k = rid
      · subst hkr
        refine List.any_eq_true.mpr ⟨(k, 1), by simp, by simp⟩
      · have hk2 : 0 < f k := by simpa [hkr] using hk
        rcases List.any_eq_true.mp (h2 k hk2) with ⟨q, hq, hqk⟩
        exact List.any_eq_true.mpr ⟨q, List.mem_append_left _ hq, hqk⟩

theorem foldl_bumpCount_repr (ids : List String) :
    ∀ (acc : List (String × Nat)) (f : String → Nat), CountRepr acc f →
      CountRepr (ids.foldl bumpCount acc) (fun k => f k + ids.count k) := by
  induction ids with
  | nil =>
    intro acc f h
    exact CountRepr_congr (fun k => by simp) h
  | cons rid rest ih =>
    intro acc f h
    rw [List.foldl_cons]
    have h1 := ih (bumpCount acc rid) _ (bumpCount_repr h rid)
    refine CountRepr_congr (fun k => ?_) h1
    by_cases hk : k = rid
    · subst hk
      rw [if_pos rfl, List.count_cons]
      simp
      omega
    · rw [if_neg hk, List.count_cons]
      have : (rid == k) = false := by
        simp
        exact fun hc => hk hc.symm
      rw [this]
      simp

theorem occCounts_repr (logs : List SearchLogE) :
    CountRepr (occCounts logs) (countOcc logs) := by
  have hbase : ∀ (pre : List SearchLogE)
      (acc : List (String × Nat)) (f : String → Nat), CountRepr acc f →
      CountRepr (pre.foldl (fun a log => log.result_ids.foldl bumpCount a) acc)
        (fun k => f k + countOcc pre k) := by
    intro pre
    induction pre with
    | nil =>
      intro acc f h
      exact CountRepr_congr (fun k => by simp [countOcc]) h
    | cons log rest ih =>
      intro acc f h
      rw [List.foldl_cons]
      have h1 := ih _ _ (foldl_bumpCount_repr log.result_ids acc f h)
      refine CountRepr_congr (fun k => ?_) h1
      simp [countOcc]
      omega
  have h0 : CountRepr [] (fun _ => 0) := by
    refine ⟨by simp, fun k hk => absurd hk (by simp)⟩
  have := hbase logs [] (fun _ => 0) h0
  exact CountRepr_congr (fun k => by simp) this

instance : IsTotal (String × Nat) byCountDesc :=
  ⟨fun a b => Nat.le_total b.2 a.2⟩

instance : IsTrans (String × Nat) byCountDesc :=
  ⟨fun _ _ _ hab hbc => Nat.le_trans hbc hab⟩

def c10Log : SearchLogE := ⟨"genre=Horror", ["ghost"], 1⟩

/-- C10 fails as stated: an id in the query log that resolves to no record
is not skipped — `top_results` appends a pair whose record slot is `None`
(the Python code appends `(comic, cnt)` even when
`Comic.objects.filter(...).first()` returned `None`). -/
theorem c10_counterexample :
    top_results [] [c10Log] 10 = [(none, 1)] ∧
      ¬ (∀ p ∈ top_results ([] : Store) [c10Log] 10, p.1 ≠ none) :=
  ⟨by decide, by decide⟩

/-- C10 as amended: `top_results` counts occurrences of each id across all
`result_ids` lists and selects the top `limit` of them by non-increasing
count: the returned pairs all carry the true positive count and the store
lookup of their id, and — completeness — every id with a positive count
either contributes such a pair to the result, or the result is already full
at `limit` records whose counts are all at least that id's count.  An id
that resolves to no record contributes a pair whose record slot is `None`
rather than being skipped. -/
theorem c10_amended_top_results (store : Store) (logs : List SearchLogE)
    (limit : Nat) :
    (top_results store logs limit).length ≤ limit ∧
    List.Pairwise (fun a b : Option Comic × Nat => b.2 ≤ a.2)
      (top_results store logs limit) ∧
    (∀ p ∈ top_results store logs limit, ∃ rid,
      p.1 = findComic store rid ∧ p.2 = countOcc logs rid ∧ 0 < p.2) ∧
    (∀ rid, 0 < countOcc logs rid →
      (∃ p ∈ top_results store logs limit,
        p.1 = findComic store rid ∧ p.2 = countOcc logs rid) ∨
      ((top_results store logs limit).length = limit ∧
        ∀ p ∈ top_results store logs limit,
          countOcc logs rid ≤ p.2)) := by
  refine ⟨?_, ?_, ?_, ?_⟩
  · show (((List.insertionSort byCountDesc (occCounts logs)).take
        limit).map (fun rc => (findComic store rc.1, rc.2))).length ≤ limit
    rw [List.length_map, List.length_take]
    exact min_le_left _ _
  · have hs := List.sorted_insertionSort byCountDesc (occCounts logs)
    have ht : List.Pairwise byCountDesc
        ((List.insertionSort byCountDesc (occCounts logs)).take limit) :=
      List.Pairwise.sublist (List.take_sublist _ _) hs
    exact ht.map _ (fun a b hab => hab)
  · intro p hp
    rcases List.mem_map.mp hp with ⟨rc, hrc, hf⟩
    have hmem : rc ∈ occCounts logs := by
      have h1 : rc ∈ List.insertionSort byCountDesc (occCounts logs) :=
        (List.take_sublist _ _).mem hrc
      exact (List.mem_insertionSort byCountDesc).mp h1
    rcases (occCounts_repr logs).1 rc hmem with ⟨hv, hpos⟩
    refine ⟨rc.1, ?_, ?_, ?_⟩
    · rw [← hf]
    · rw [← hf]
      exact hv
    · rw [← hf]
      exact hpos
  · intro rid hrid
    have hany := (occCounts_repr logs).2 rid hrid
    rcases List.any_eq_true.mp hany with ⟨rc, hrc, hk⟩
    have hk2 : rc.1 = rid := by simpa using hk
    rcases (occCounts_repr logs).1 rc hrc with ⟨hv, _⟩
    have hsortmem : rc ∈ List.insertionSort byCountDesc (occCounts logs) :=
      (List.mem_insertionSort byCountDesc).mpr hrc
    rw [← List.take_append_drop limit
      (List.insertionSort byCountDesc (occCounts logs))] at hsortmem
    rcases List.mem_append.mp hsortmem with hin | hout
    · left
      refine ⟨(findComic store rc.1, rc.2), ?_, by rw [hk2], ?_⟩
      · show (findComic store rc.1, rc.2) ∈
          ((List.insertionSort byCountDesc (occCounts logs)).take
            limit).map (fun rc => (findComic store rc.1, rc.2))
        exact List.mem_map.mpr ⟨rc, hin, rfl⟩
      · show rc.2 = countOcc logs rid
        rw [hv, hk2]
    · right
      have hlen : limit <
          (List.insertionSort byCountDesc (occCounts logs)).length := by
        by_contra hcon
        push_neg at hcon
        rw [List.drop_eq_nil_of_le hcon] at hout
        simp at hout
      constructor
      · show (((List.insertionSort byCountDesc (occCounts logs)).take
            limit).map (fun rc => (findComic store rc.1, rc.2))).length =
          limit
        rw [List.length_map, List.length_take]
        exact min_eq_left (le_of_lt hlen)
      · intro p hp
        rcases List.mem_map.mp hp with ⟨rc2, hrc2, hf⟩
        have hsorted : List.Pairwise byCountDesc
            (List.insertionSort byCountDesc (occCounts logs)) :=
          List.sorted_insertionSort byCountDesc (occCounts logs)
        rw [← List.take_append_drop limit
          (List.insertionSort byCountDesc (occCounts logs))] at hsorted
        have hrel := (List.pairwise_append.mp hsorted).2.2 rc2 hrc2 rc hout
        rw [← hf]
        show countOcc logs rid ≤ rc2.2
        rw [← hk2, ← hv]
        exact hrel

def c10wStore : Store := [⟨"1", "Alpha", [], [], [], [], [], [], []⟩]

def c10wLog : SearchLogE := ⟨"title=Alpha", ["1", "ghost", "1"], 2⟩

theorem c10_witness :
    (top_results c10wStore [c10wLog] 10).length ≤ 10 ∧
    List.Pairwise (fun a b : Option Comic × Nat => b.2 ≤ a.2)
      (top_results c10wStore [c10wLog] 10) ∧
    (∀ p ∈ top_results c10wStore [c10wLog] 10, ∃ rid,
      p.1 = findComic c10wStore rid ∧ p.2 = countOcc [c10wLog] rid ∧
        0 < p.2) ∧
    (∀ rid, 0 < countOcc [c10wLog] rid →
      (∃ p ∈ top_results c10wStore [c10wLog] 10,
        p.1 = findComic c10wStore rid ∧ p.2 = countOcc [c10wLog] rid) ∨
      ((top_results c10wStore [c10wLog] 10).length = 10 ∧
        ∀ p ∈ top_results c10wStore [c10wLog] 10,
          countOcc [c10wLog] rid ≤ p.2)) :=
  c10_amended_top_results c10wStore [c10wLog] 10

end ComicEnc
